import Mathlib

/-!
Verification of the ecotr3 directory-tree generator
(`src/ecotr3/tree_generator.py`, `src/ecotr3/ignore_handler.py`).

The Python code is shallowly embedded:

* The filesystem is a pure value `FSEntry` (a file with a size, or a
  directory with a readable flag and a list of children in directory-listing
  order).  A directory whose `readable` flag is `false` models a directory on
  which `os.listdir` raises `PermissionError` / `FileNotFoundError`.
* `fnmatch.fnmatch(name, pat)` on a POSIX system matches `name` against the
  glob `pat` anchored at both ends, where `*` matches any run of characters,
  `?` matches exactly one character and every other character matches
  literally (POSIX `os.path.normcase` is the identity, so matching is
  case-sensitive).  `globMatch` implements exactly this language.  (Patterns
  using `[...]` character classes are not modelled; no pattern in this
  development contains a bracket.)
* Python string comparison (used by `sorted`) is lexicographic on code
  points; `strLe`/`lexLe` implement it on `String.data`.
* CPython float division by 1024 and `f"{x:.2f}"` formatting are modelled
  exactly: every value reached by `format_size` is `n / 1024^k`, which we
  keep as the pair `(n, k)`; `:.2f` is round-half-even to two decimals,
  which agrees with CPython whenever the double is exact (true for every
  input appearing below).
* Recursion over the directory tree is by fuel; the top-level wrappers pass
  the tree measure `esize`, which is always sufficient (the fuel-irrelevance
  lemmas below make this precise).
-/

set_option maxRecDepth 100000

namespace Ecotr3

/-! ### Python string primitives (over `String.data`) -/

/-- Lexicographic comparison of char lists by code point: Python `<=` on
strings. -/
def lexLe : List Char → List Char → Bool
  | [], _ => true
  | _ :: _, [] => false
  | a :: as, b :: bs =>
    if a.toNat < b.toNat then true
    else if b.toNat < a.toNat then false
    else lexLe as bs

/-- Python string `<=` (code-point lexicographic). -/
def strLe (a b : String) : Bool := lexLe a.data b.data

/-- `os.path.basename`: the part of the path after the last slash. -/
def basename (p : String) : String :=
  String.mk ((p.data.reverse.takeWhile (fun c => c ≠ '/')).reverse)

/-- `os.path.join` for an absolute POSIX directory path and an entry name. -/
def joinPath (d n : String) : String := d ++ "/" ++ n

/-- ASCII lower-casing, modelling Python `str.lower` on the ASCII strings
that appear in extensions and ignore patterns. -/
def asciiLowerChar (c : Char) : Char :=
  if 'A' ≤ c ∧ c ≤ 'Z' then Char.ofNat (c.toNat + 32) else c

/-- Python `str.lower` (ASCII fragment). -/
def pyLower (s : String) : String := String.mk (s.data.map asciiLowerChar)

/-- Python whitespace for `str.strip`. -/
def isPySpace (c : Char) : Bool :=
  c == ' ' || c == '\t' || c == '\n' || c == '\r' || c == '\x0b' || c == '\x0c'

/-- Python `str.strip()`. -/
def pyStrip (s : String) : String :=
  String.mk (((s.data.dropWhile isPySpace).reverse.dropWhile isPySpace).reverse)

/-- Python `str.rstrip(c)` for a single character. -/
def pyRstrip (s : String) (c : Char) : String :=
  String.mk ((s.data.reverse.dropWhile (fun x => x == c)).reverse)

/-- Python `str.startswith`. -/
def pyStartsWith (s pre : String) : Bool := pre.data.isPrefixOf s.data

/-- Python `str.endswith`. -/
def pyEndsWith (s suf : String) : Bool := suf.data.reverse.isPrefixOf s.data.reverse

/-! ### The glob matcher (`fnmatch.fnmatch` on POSIX) -/

/-- Anchored glob matching: `globMatch pat s` holds iff the whole string `s`
is in the language of the glob `pat` (`*` = any run, `?` = any one char,
other characters literal).  This is the language of the regex that
`fnmatch.translate` produces for patterns without character classes. -/
def globMatch : List Char → List Char → Bool
  | [], s => s.isEmpty
  | '*' :: ps, s => (s.tails).any (fun t => globMatch ps t)
  | '?' :: ps, s =>
    match s with
    | [] => false
    | _ :: cs => globMatch ps cs
  | p :: ps, s =>
    match s with
    | [] => false
    | c :: cs => p == c && globMatch ps cs

/-- `fnmatch.fnmatch(name, pattern)` (POSIX: `normcase` is the identity). -/
def fnmatch (name pattern : String) : Bool := globMatch pattern.data name.data

/-- `tree_generator.should_ignore`: an entry is ignored when any pattern
matches its base name or its full path. -/
def should_ignore (path : String) (ignorePatterns : List String) : Bool :=
  let baseName := basename path
  ignorePatterns.any (fun pattern => fnmatch baseName pattern || fnmatch path pattern)

/-! ### The filesystem model -/

/-- A filesystem entry.  Children are kept in `os.listdir` order.  A
directory with `readable := false` is one whose listing raises
`PermissionError` or `FileNotFoundError`. -/
inductive FSEntry : Type where
  | file (name : String) (size : Nat)
  | dir (name : String) (readable : Bool) (children : List FSEntry)
deriving Repr

def FSEntry.name : FSEntry → String
  | FSEntry.file n _ => n
  | FSEntry.dir n _ _ => n

def FSEntry.isDir : FSEntry → Bool
  | FSEntry.file _ _ => false
  | FSEntry.dir _ _ _ => true

/-!
`esize` is the size measure of a tree, used as recursion fuel by the walkers
below (one unit of fuel is consumed per directory level, and every child is
strictly smaller, so `esize` fuel always suffices).
-/
mutual
def esize : FSEntry → Nat
  | FSEntry.file _ _ => 1
  | FSEntry.dir _ _ children => 1 + esizeList children
def esizeList : List FSEntry → Nat
  | [] => 0
  | e :: rest => esize e + 1 + esizeList rest
end

/-- The order used by `sorted(os.listdir(...))`: code-point comparison of
names.  Ties (impossible on a real filesystem) keep listing order, as
Python's stable sort does. -/
def entryLe (a b : FSEntry) : Prop := strLe a.name b.name = true

instance : DecidableRel entryLe := fun a b =>
  inferInstanceAs (Decidable (strLe a.name b.name = true))

/-- `sorted(os.listdir(directory))`. -/
def sortEntries (l : List FSEntry) : List FSEntry := List.insertionSort entryLe l

/-! ### The renderer (`_generate_tree` inside `generate_directory_tree`) -/

/-- One line appended to `tree_lines` by `_generate_tree`, together with the
entry it renders: its full path, bare name, branch glyph and depth (`depth`
is the `depth` argument of the `_generate_tree` call that emitted it, so the
root's immediate children have depth 0). -/
structure RLine where
  text : String
  path : String
  ename : String
  branch : String
  depth : Int
deriving Repr, DecidableEq

/-- `max_depth is not None and depth > max_depth`. -/
def depthExceeded (maxDepth : Option Int) (depth : Int) : Bool :=
  match maxDepth with
  | some m => decide (m < depth)
  | none => false

/-- `total_valid_entries = sum(1 for entry in entries if not should_ignore(...))`. -/
def countValid (pats : List String) (dirPath : String) (entries : List FSEntry) : Nat :=
  (entries.filter (fun e => !should_ignore (joinPath dirPath e.name) pats)).length

/-- The `for entry in entries` loop of `_generate_tree`: walks the sorted
entries with the `processed_entries` counter, emitting one `RLine` per
non-ignored entry and splicing in the recursive rendering (`rec`) of
directory entries. -/
def genLoop (pats : List String) (rec : FSEntry → String → String → Int → List RLine) :
    List FSEntry → String → String → Int → Nat → Nat → List RLine
  | [], _, _, _, _, _ => []
  | e :: rest, dirPath, pfx, depth, processed, total =>
    let fullPath := joinPath dirPath e.name
    if should_ignore fullPath pats then
      genLoop pats rec rest dirPath pfx depth processed total
    else
      let isLast := processed + 1 == total
      let branch := if isLast then "└── " else "├── "
      let newPfx := pfx ++ (if isLast then "    " else "│   ")
      RLine.mk (pfx ++ branch ++ e.name) fullPath e.name branch depth ::
        ((if e.isDir then rec e fullPath newPfx (depth + 1) else []) ++
          genLoop pats rec rest dirPath pfx depth (processed + 1) total)

/-- `_generate_tree(directory, prefix, depth)`, by fuel (one unit per
recursion level; the wrapper `genTree` supplies `sizeOf`, which always
suffices).  Returns the `RLine`s appended below the root line. -/
def genTreeF (pats : List String) (maxDepth : Option Int) :
    Nat → FSEntry → String → String → Int → List RLine
  | 0, _, _, _, _ => []
  | _ + 1, FSEntry.file _ _, _, _, _ => []
  | fuel + 1, FSEntry.dir _ readable children, dirPath, pfx, depth =>
    if depthExceeded maxDepth depth then []
    else if readable then
      let entries := sortEntries children
      genLoop pats (fun e fp px dd => genTreeF pats maxDepth fuel e fp px dd)
        entries dirPath pfx depth 0 (countValid pats dirPath entries)
    else []

/-- `_generate_tree` run on a directory entry located at `dirPath`. -/
def genTree (pats : List String) (maxDepth : Option Int) (e : FSEntry)
    (dirPath pfx : String) (depth : Int) : List RLine :=
  genTreeF pats maxDepth (esize e) e dirPath pfx depth

/-! ### The statistics aggregator (`calculate_directory_stats`) -/

/-- The `stats` dictionary.  `extensions` is an association list in first-
encounter order, matching Python dict insertion order. -/
structure DirStats where
  file_count : Nat
  dir_count : Nat
  total_size : Nat
  max_depth : Nat
  extensions : List (String × Nat)
deriving Repr, DecidableEq

def emptyStats : DirStats :=
  { file_count := 0, dir_count := 0, total_size := 0, max_depth := 0, extensions := [] }

/-- `stats['extensions'][ext] += 1` on an insertion-ordered association
list. -/
def bumpExt : List (String × Nat) → String → List (String × Nat)
  | [], e => [(e, 1)]
  | (k, c) :: rest, e =>
    if k == e then (k, c + 1) :: rest else (k, c) :: bumpExt rest e

/-- The extension part of `os.path.splitext(name)`: everything from the last
dot on, provided some non-dot character precedes that dot (so `.git` has no
extension). -/
def splitextExt (name : String) : String :=
  let rcs := name.data.reverse
  let afterRev := rcs.takeWhile (fun c => c ≠ '.')
  if afterRev.length == rcs.length then ""
  else if (rcs.drop (afterRev.length + 1)).any (fun c => c ≠ '.') then
    String.mk ('.' :: afterRev.reverse)
  else ""

/-- The `for entry in entries` loop of `_analyze_directory` (children are
visited in listing order; no sorting here). -/
def analyzeLoop (pats : List String) (rec : FSEntry → String → Nat → DirStats → DirStats) :
    List FSEntry → String → Nat → DirStats → DirStats
  | [], _, _, s => s
  | e :: rest, dirPath, depth, s =>
    let fullPath := joinPath dirPath e.name
    if !pats.isEmpty && should_ignore fullPath pats then
      analyzeLoop pats rec rest dirPath depth s
    else
      match e with
      | FSEntry.dir _ _ _ =>
        analyzeLoop pats rec rest dirPath depth
          (rec e fullPath (depth + 1) { s with dir_count := s.dir_count + 1 })
      | FSEntry.file n sz =>
        let s1 := { s with file_count := s.file_count + 1, total_size := s.total_size + sz }
        let ext := splitextExt n
        analyzeLoop pats rec rest dirPath depth
          (if ext.data.isEmpty then s1
           else { s1 with extensions := bumpExt s1.extensions (pyLower ext) })

/-- `_analyze_directory(current_dir, current_depth)`, by fuel.  The
`max_depth` update happens before the listing is attempted, exactly as in
the source. -/
def analyzeDirF (pats : List String) : Nat → FSEntry → String → Nat → DirStats → DirStats
  | 0, _, _, _, s => s
  | fuel + 1, e, dirPath, depth, s =>
    let s1 := { s with max_depth := max s.max_depth depth }
    match e with
    | FSEntry.file _ _ => s1
    | FSEntry.dir _ readable children =>
      if readable then
        analyzeLoop pats (fun c fp dd acc => analyzeDirF pats fuel c fp dd acc)
          children dirPath depth s1
      else s1

/-- `calculate_directory_stats(directory, ignore_patterns)`. -/
def calculate_directory_stats (root : FSEntry) (rootPath : String)
    (pats : List String) : DirStats :=
  analyzeDirF pats (esize root) root rootPath 0 emptyStats

/-! ### `format_size`

`format_size` repeatedly divides a float by 1024; every intermediate value
is `n / 1024 ^ k`, represented here by the pair `(n, k)`.  All divisions by
1024 are exact in double precision for the magnitudes involved, so this
rational model coincides with CPython on every input used below. -/

/-- `f"{x:.2f}"` for `x = n / 1024^k ≥ 0`: round half-to-even to two
decimals and print with exactly two decimals. -/
def pyFormatF2 (n k : Nat) : String :=
  let d := 1024 ^ k
  let q := (100 * n) / d
  let r := (100 * n) % d
  let hundredths :=
    if 2 * r < d then q
    else if d < 2 * r then q + 1
    else if q % 2 == 0 then q else q + 1
  toString (hundredths / 100) ++ "." ++
    (if hundredths % 100 < 10 then "0" ++ toString (hundredths % 100)
     else toString (hundredths % 100))

/-- The `for unit in [...]` loop of `format_size`, with the running value
`n / 1024^k`; `size_bytes /= 1024` becomes `k + 1`. -/
def format_size_go (n : Nat) : Nat → List String → String
  | _, [] => ""
  | k, unit :: rest =>
    if n < 1024 ^ (k + 1) || unit == "TB" then
      pyRstrip (pyRstrip (pyFormatF2 n k ++ " " ++ unit) '0') '.' ++ " " ++ unit
    else format_size_go n (k + 1) rest

/-- `tree_generator.format_size(size_bytes)` for an integer byte count. -/
def format_size (size_bytes : Nat) : String :=
  format_size_go size_bytes 0 ["B", "KB", "MB", "GB", "TB"]

/-! ### The statistics block and `generate_directory_tree` -/

/-- `sorted(stats['extensions'].items(), key=count, reverse=True)`: stable
descending sort by count (ties keep first-encounter order). -/
def extGe (a b : String × Nat) : Prop := b.2 ≤ a.2

instance : DecidableRel extGe := fun a b => inferInstanceAs (Decidable (b.2 ≤ a.2))

def sortExtensions (l : List (String × Nat)) : List (String × Nat) :=
  List.insertionSort extGe l

/-- The list elements appended to `tree_lines` for the statistics block
(note the embedded newlines: the separator and the extensions header are
single list elements beginning with `"\n"`, exactly as in the source). -/
def statsLines (s : DirStats) : List String :=
  let base := ["\n========================================",
    "Directory Statistics:",
    "Total Files: " ++ toString s.file_count,
    "Total Directories: " ++ toString s.dir_count,
    "Maximum Depth: " ++ toString s.max_depth,
    "Total Size: " ++ format_size s.total_size]
  if s.extensions.isEmpty then base
  else
    base ++ ("\nTop File Extensions:" ::
      ((sortExtensions s.extensions).take 5).map
        (fun p => "  " ++ p.1 ++ ": " ++ toString p.2 ++ " files"))

/-- The default ignore patterns installed by `generate_directory_tree` when
the caller passes `ignore_patterns=None`. -/
def default_ignore_patterns : List String :=
  [".git", "__pycache__", "*.pyc", "*.log", ".DS_Store"]

/-- The pattern list actually used by `generate_directory_tree`. -/
def activePatterns (ignorePatterns : Option (List String)) : List String :=
  match ignorePatterns with
  | none => default_ignore_patterns
  | some ps => ps

/-- `generate_directory_tree(root_dir, ignore_patterns, max_depth,
include_stats)`.  `rootPath` is the already-resolved absolute path of the
root (the source's `os.path.abspath(root_dir)`) and `root` the directory it
denotes. -/
def generate_directory_tree (root : FSEntry) (rootPath : String)
    (ignorePatterns : Option (List String)) (maxDepth : Option Int)
    (includeStats : Bool) : String :=
  let pats := activePatterns ignorePatterns
  let treeLines :=
    basename rootPath :: (genTree pats maxDepth root rootPath "" 0).map RLine.text
  let allLines :=
    if includeStats then
      treeLines ++ statsLines (calculate_directory_stats root rootPath pats)
    else treeLines
  String.intercalate "\n" allLines

/-! ### `ignore_handler` -/

/-- `load_ignore_file`: `fileLines` is `none` when the ignore file does not
exist (or reading raised `IOError`), otherwise the file's lines.  The list
comprehension keeps the stripped form of each line that is non-empty and not
a comment, and the result is defaults ++ custom. -/
def load_ignore_file (fileLines : Option (List String)) : List String :=
  match fileLines with
  | none => default_ignore_patterns
  | some lines =>
    default_ignore_patterns ++
      lines.filterMap (fun line =>
        let t := pyStrip line
        if !t.data.isEmpty && !pyStartsWith t "#" then some t else none)

/-- `validate_ignore_pattern`: the regex it builds (`re.escape` with `\*`
and `\?` restored, `.*` appended for a trailing slash, anchored by `^`/`$`)
recognises exactly the glob language of the stripped pattern with `*`
appended when it ends in `/`; the result is modelled by that glob. -/
def validate_ignore_pattern (pattern : String) : Option String :=
  let p := pyStrip pattern
  if p.data.isEmpty || pyStartsWith p "#" then none
  else some (if pyEndsWith p "/" then p ++ "*" else p)

/-- `path.lstrip('./\\')`. -/
def pyLstripDotSlash (path : String) : String :=
  String.mk (path.data.dropWhile (fun c => c == '.' || c == '/' || c == '\\'))

/-- `is_path_ignored(path, ignore_patterns)`: each pattern is converted by
`validate_ignore_pattern` and matched with `re.match(..., re.IGNORECASE)`
against the normalised path (case-insensitivity is modelled by lower-casing
both sides). -/
def is_path_ignored (path : String) (ignorePatterns : List String) : Bool :=
  let normalizedPath := pyLstripDotSlash path
  ignorePatterns.any (fun pattern =>
    match validate_ignore_pattern pattern with
    | some g => globMatch (pyLower g).data (pyLower normalizedPath).data
    | none => false)

/-! ### Claim-side auxiliary definitions -/

/-- The loop shape of `filteredEntriesF`, mirroring `genLoop` without
rendering: collects `(full path, depth)` of every surviving entry. -/
def filteredLoop (pats : List String) (rec : FSEntry → String → Int → List (String × Int)) :
    List FSEntry → String → Int → List (String × Int)
  | [], _, _ => []
  | e :: rest, dirPath, depth =>
    let fullPath := joinPath dirPath e.name
    if should_ignore fullPath pats then filteredLoop pats rec rest dirPath depth
    else
      (fullPath, depth) ::
        ((if e.isDir then rec e fullPath (depth + 1) else []) ++
          filteredLoop pats rec rest dirPath depth)

/-- All entries of the subtree below `e` that survive pattern filtering,
with their depths (root children at depth 0), ignoring the readable flag and
any depth limit: the spec's "filtered subtree". -/
def filteredEntriesF (pats : List String) : Nat → FSEntry → String → Int → List (String × Int)
  | 0, _, _, _ => []
  | _ + 1, FSEntry.file _ _, _, _ => []
  | fuel + 1, FSEntry.dir _ _ children, dirPath, depth =>
    filteredLoop pats (fun c fp dd => filteredEntriesF pats fuel c fp dd)
      (sortEntries children) dirPath depth

def filteredEntries (pats : List String) (e : FSEntry) (dirPath : String)
    (depth : Int) : List (String × Int) :=
  filteredEntriesF pats (esize e) e dirPath depth

/-- Every directory in the tree is readable. -/
inductive AllReadable : FSEntry → Prop where
  | file : ∀ n s, AllReadable (FSEntry.file n s)
  | dir : ∀ n children, (∀ c ∈ children, AllReadable c) →
      AllReadable (FSEntry.dir n true children)

/-- Recursively sort all children lists; two trees denote the same
filesystem snapshot in different listing orders iff their `sortFS` images
agree (names are unique on a real filesystem). -/
def sortFSF : Nat → FSEntry → FSEntry
  | 0, e => e
  | _ + 1, FSEntry.file n s => FSEntry.file n s
  | fuel + 1, FSEntry.dir n r children =>
    FSEntry.dir n r (sortEntries (children.map (fun c => sortFSF fuel c)))

def sortFS (e : FSEntry) : FSEntry := sortFSF (esize e) e

/-- Replace every unreadable directory by a readable directory with no
children ("treat that node as having no children"). -/
def pruneUnreadableF : Nat → FSEntry → FSEntry
  | 0, e => e
  | _ + 1, FSEntry.file n s => FSEntry.file n s
  | fuel + 1, FSEntry.dir n r children =>
    if r then FSEntry.dir n true (children.map (fun c => pruneUnreadableF fuel c))
    else FSEntry.dir n true []

def pruneUnreadable (e : FSEntry) : FSEntry := pruneUnreadableF (esize e) e

/-- The children of a directory (sorted) that survive pattern filtering: the
entries the loop of `_generate_tree` renders at this level. -/
def survivors (pats : List String) (dp : String) (ch : List FSEntry) : List FSEntry :=
  (sortEntries ch).filter (fun e => !should_ignore (joinPath dp e.name) pats)

/-- The name of the sort-order-last surviving child. -/
def lastSurvivorName (pats : List String) (dp : String) (ch : List FSEntry) : String :=
  ((survivors pats dp ch).getLastD (FSEntry.file "" 0)).name

/-- What the loop of `_generate_tree` emits at its own level for a list of
already-filtered entries: one line per entry, with the branch glyph chosen
by the `processed`/`total` counters. -/
def levelGlyphs : List FSEntry → String → String → Int → Nat → Nat → List RLine
  | [], _, _, _, _, _ => []
  | e :: rest, dirPath, pfx, depth, processed, total =>
    let isLast := processed + 1 == total
    let branch := if isLast then "└── " else "├── "
    RLine.mk (pfx ++ branch ++ e.name) (joinPath dirPath e.name) e.name branch depth ::
      levelGlyphs rest dirPath pfx depth (processed + 1) total

/-! ### Concrete filesystems used in witnesses and counterexamples -/

/-- The spec scenario of C3: `root {src/{main.py}, docs/{index.html}}`. -/
def fs3 : FSEntry :=
  FSEntry.dir "r" true
    [FSEntry.dir "src" true [FSEntry.file "main.py" 20],
     FSEntry.dir "docs" true [FSEntry.file "index.html" 30]]

/-- Two listing orders of the same snapshot: two files of one byte each with
distinct extensions. -/
def fsA : FSEntry := FSEntry.dir "r" true [FSEntry.file "a.x" 1, FSEntry.file "b.y" 1]

def fsB : FSEntry := FSEntry.dir "r" true [FSEntry.file "b.y" 1, FSEntry.file "a.x" 1]

/-- A root containing only a `.git` directory. -/
def fs5 : FSEntry := FSEntry.dir "r" true [FSEntry.dir ".git" true []]

/-- Children with one default-ignored entry and two survivors. -/
def ch7 : List FSEntry :=
  [FSEntry.file "b.txt" 1, FSEntry.file "a.txt" 2, FSEntry.dir ".git" true []]

/-- A small readable root. -/
def fsW : FSEntry := FSEntry.dir "r" true [FSEntry.file "a.txt" 3]

/-! ## Lemmas about the size measure -/

theorem esize_pos : ∀ e : FSEntry, 1 ≤ esize e
  | FSEntry.file _ _ => le_refl 1
  | FSEntry.dir _ _ _ => Nat.le_add_right 1 _

theorem esize_lt_of_mem {c : FSEntry} : ∀ {l : List FSEntry}, c ∈ l → esize c < esizeList l
  | _ :: rest, h => by
    rcases List.mem_cons.mp h with h | h
    · subst h
      simp only [esizeList]
      omega
    · have ih := esize_lt_of_mem h
      simp only [esizeList]
      omega

theorem esizeList_perm : ∀ {l₁ l₂ : List FSEntry}, l₁.Perm l₂ → esizeList l₁ = esizeList l₂ := by
  intro l₁ l₂ h
  induction h with
  | nil => rfl
  | cons x _ ih => simp only [esizeList, ih]
  | swap x y l => simp only [esizeList]; omega
  | trans _ _ ih₁ ih₂ => omega

theorem mem_sortEntries {c : FSEntry} {l : List FSEntry} : c ∈ sortEntries l ↔ c ∈ l :=
  List.mem_insertionSort entryLe

theorem sortEntries_perm (l : List FSEntry) : (sortEntries l).Perm l :=
  List.perm_insertionSort entryLe l

theorem esizeList_sortEntries (l : List FSEntry) : esizeList (sortEntries l) = esizeList l :=
  esizeList_perm (sortEntries_perm l)

theorem esize_lt_of_mem_sort {c : FSEntry} {l : List FSEntry} (h : c ∈ sortEntries l) :
    esize c < esizeList l :=
  esize_lt_of_mem (mem_sortEntries.mp h)

/-! ## The sort order is total, transitive and reflexive -/

theorem lexLe_refl : ∀ a : List Char, lexLe a a = true
  | [] => rfl
  | c :: cs => by simp only [lexLe, lt_irrefl, if_false, lexLe_refl cs]

theorem lexLe_total : ∀ a b : List Char, lexLe a b = true ∨ lexLe b a = true
  | [], _ => Or.inl rfl
  | _ :: _, [] => Or.inr rfl
  | a :: as, b :: bs => by
    simp only [lexLe]
    rcases Nat.lt_trichotomy a.toNat b.toNat with h | h | h
    · left; simp [h]
    · have h1 : ¬ a.toNat < b.toNat := by omega
      have h2 : ¬ b.toNat < a.toNat := by omega
      rcases lexLe_total as bs with ih | ih <;> [left; right] <;> simp [h1, h2, ih]
    · right; simp [h]

theorem lexLe_trans : ∀ {a b c : List Char},
    lexLe a b = true → lexLe b c = true → lexLe a c = true
  | [], _, _, _, _ => rfl
  | _ :: _, [], _, hab, _ => Bool.noConfusion hab
  | _ :: _, _ :: _, [], _, hbc => Bool.noConfusion hbc
  | a :: as, b :: bs, c :: cs, hab, hbc => by
    simp only [lexLe] at hab hbc ⊢
    rcases Nat.lt_trichotomy a.toNat b.toNat with h1 | h1 | h1
    · rcases Nat.lt_trichotomy b.toNat c.toNat with h2 | h2 | h2
      · have h3 : a.toNat < c.toNat := lt_trans h1 h2
        simp [h3]
      · have h3 : a.toNat < c.toNat := by omega
        simp [h3]
      · have hn : ¬ b.toNat < c.toNat := by omega
        simp [hn, h2] at hbc
    · have hn1 : ¬ a.toNat < b.toNat := by omega
      have hn1b : ¬ b.toNat < a.toNat := by omega
      simp [hn1, hn1b] at hab
      rcases Nat.lt_trichotomy b.toNat c.toNat with h2 | h2 | h2
      · have h3 : a.toNat < c.toNat := by omega
        simp [h3]
      · have hn3 : ¬ b.toNat < c.toNat := by omega
        have hn3b : ¬ c.toNat < b.toNat := by omega
        simp [hn3, hn3b] at hbc
        have hn2 : ¬ a.toNat < c.toNat := by omega
        have hn2b : ¬ c.toNat < a.toNat := by omega
        simp [hn2, hn2b]
        exact lexLe_trans hab hbc
      · have hn : ¬ b.toNat < c.toNat := by omega
        simp [hn, h2] at hbc
    · have hn : ¬ a.toNat < b.toNat := by omega
      simp [hn, h1] at hab

instance : IsTotal FSEntry entryLe :=
  ⟨fun a b => lexLe_total a.name.data b.name.data⟩

instance : IsTrans FSEntry entryLe :=
  ⟨fun _ _ _ hab hbc => lexLe_trans hab hbc⟩

instance : IsRefl FSEntry entryLe := ⟨fun a => lexLe_refl a.name.data⟩

theorem sorted_sortEntries (l : List FSEntry) : List.Sorted entryLe (sortEntries l) :=
  List.sorted_insertionSort entryLe l

/-! ## Fuel irrelevance: `esize` fuel always suffices -/

theorem genLoop_congr {pats : List String}
    {rec₁ rec₂ : FSEntry → String → String → Int → List RLine}
    {entries : List FSEntry} {dirPath pfx : String} {depth : Int} {processed total : Nat}
    (h : ∀ e ∈ entries, ∀ fp px dd, rec₁ e fp px dd = rec₂ e fp px dd) :
    genLoop pats rec₁ entries dirPath pfx depth processed total =
      genLoop pats rec₂ entries dirPath pfx depth processed total := by
  induction entries generalizing processed with
  | nil => rfl
  | cons e rest ih =>
    have hhead := h e (List.mem_cons_self e rest)
    have htail : ∀ e' ∈ rest, ∀ fp px dd, rec₁ e' fp px dd = rec₂ e' fp px dd :=
      fun e' he' => h e' (List.mem_cons_of_mem e he')
    simp only [genLoop]
    split
    · exact ih htail
    · rw [hhead, ih htail]

theorem esize_dir (n : String) (r : Bool) (ch : List FSEntry) :
    esize (FSEntry.dir n r ch) = esizeList ch + 1 := by
  simp only [esize]; omega

theorem genTreeF_fuel {pats : List String} {maxDepth : Option Int} :
    ∀ {f₁ f₂ : Nat} {e : FSEntry} {dirPath pfx : String} {depth : Int},
    esize e ≤ f₁ → esize e ≤ f₂ →
    genTreeF pats maxDepth f₁ e dirPath pfx depth =
      genTreeF pats maxDepth f₂ e dirPath pfx depth := by
  intro f₁
  induction f₁ with
  | zero =>
    intro f₂ e _ _ _ h₁ _
    exact absurd h₁ (by have := esize_pos e; omega)
  | succ f₁ ih =>
    intro f₂ e dirPath pfx depth h₁ h₂
    match f₂, e with
    | 0, e => exact absurd h₂ (by have := esize_pos e; omega)
    | g + 1, FSEntry.file n s => rfl
    | g + 1, FSEntry.dir n r children =>
      have hch : esizeList children ≤ f₁ := by
        have := esize_dir n r children; omega
      have hch₂ : esizeList children ≤ g := by
        have := esize_dir n r children; omega
      have hrec : ∀ c ∈ sortEntries children, ∀ fp px dd,
          genTreeF pats maxDepth f₁ c fp px dd = genTreeF pats maxDepth g c fp px dd := by
        intro c hc fp px dd
        have hlt := esize_lt_of_mem_sort hc
        exact ih (by omega) (by omega)
      simp only [genTreeF]
      split
      · rfl
      · split
        · exact genLoop_congr hrec
        · rfl

theorem analyzeLoop_congr {pats : List String}
    {rec₁ rec₂ : FSEntry → String → Nat → DirStats → DirStats}
    {entries : List FSEntry} {dirPath : String} {depth : Nat}
    (h : ∀ e ∈ entries, ∀ fp dd acc, rec₁ e fp dd acc = rec₂ e fp dd acc) :
    ∀ {s : DirStats},
    analyzeLoop pats rec₁ entries dirPath depth s =
      analyzeLoop pats rec₂ entries dirPath depth s := by
  induction entries with
  | nil => intro s; rfl
  | cons e rest ih =>
    intro s
    have hhead := h e (List.mem_cons_self e rest)
    have htail : ∀ e' ∈ rest, ∀ fp dd acc, rec₁ e' fp dd acc = rec₂ e' fp dd acc :=
      fun e' he' => h e' (List.mem_cons_of_mem e he')
    simp only [analyzeLoop]
    split
    · exact ih htail
    · cases e with
      | dir n r ch =>
        dsimp only
        rw [hhead, ih htail]
      | file n sz =>
        dsimp only
        rw [ih htail]

theorem analyzeDirF_fuel {pats : List String} :
    ∀ {f₁ f₂ : Nat} {e : FSEntry} {dirPath : String} {depth : Nat} {s : DirStats},
    esize e ≤ f₁ → esize e ≤ f₂ →
    analyzeDirF pats f₁ e dirPath depth s = analyzeDirF pats f₂ e dirPath depth s := by
  intro f₁
  induction f₁ with
  | zero =>
    intro f₂ e _ _ _ h₁ _
    exact absurd h₁ (by have := esize_pos e; omega)
  | succ f₁ ih =>
    intro f₂ e dirPath depth s h₁ h₂
    match f₂, e with
    | 0, e => exact absurd h₂ (by have := esize_pos e; omega)
    | g + 1, FSEntry.file n sz => rfl
    | g + 1, FSEntry.dir n r children =>
      have hch : esizeList children ≤ f₁ := by
        have := esize_dir n r children; omega
      have hch₂ : esizeList children ≤ g := by
        have := esize_dir n r children; omega
      have hrec : ∀ c ∈ children, ∀ fp dd acc,
          analyzeDirF pats f₁ c fp dd acc = analyzeDirF pats g c fp dd acc := by
        intro c hc fp dd acc
        have hlt := esize_lt_of_mem hc
        exact ih (by omega) (by omega)
      simp only [analyzeDirF]
      split
      · exact analyzeLoop_congr hrec
      · rfl

theorem sortFSF_fuel :
    ∀ {f₁ f₂ : Nat} {e : FSEntry}, esize e ≤ f₁ → esize e ≤ f₂ → sortFSF f₁ e = sortFSF f₂ e := by
  intro f₁
  induction f₁ with
  | zero =>
    intro f₂ e h₁ _
    exact absurd h₁ (by have := esize_pos e; omega)
  | succ f₁ ih =>
    intro f₂ e h₁ h₂
    match f₂, e with
    | 0, e => exact absurd h₂ (by have := esize_pos e; omega)
    | g + 1, FSEntry.file n s => rfl
    | g + 1, FSEntry.dir n r children =>
      have hch : esizeList children ≤ f₁ := by
        have := esize_dir n r children; omega
      have hch₂ : esizeList children ≤ g := by
        have := esize_dir n r children; omega
      simp only [sortFSF]
      congr 2
      exact List.map_congr_left fun c hc => by
        have hlt := esize_lt_of_mem hc
        exact ih (by omega) (by omega)

theorem pruneUnreadableF_fuel :
    ∀ {f₁ f₂ : Nat} {e : FSEntry}, esize e ≤ f₁ → esize e ≤ f₂ →
      pruneUnreadableF f₁ e = pruneUnreadableF f₂ e := by
  intro f₁
  induction f₁ with
  | zero =>
    intro f₂ e h₁ _
    exact absurd h₁ (by have := esize_pos e; omega)
  | succ f₁ ih =>
    intro f₂ e h₁ h₂
    match f₂, e with
    | 0, e => exact absurd h₂ (by have := esize_pos e; omega)
    | g + 1, FSEntry.file n s => rfl
    | g + 1, FSEntry.dir n r children =>
      have hch : esizeList children ≤ f₁ := by
        have := esize_dir n r children; omega
      have hch₂ : esizeList children ≤ g := by
        have := esize_dir n r children; omega
      simp only [pruneUnreadableF]
      split
      · congr 1
        exact List.map_congr_left fun c hc => by
          have hlt := esize_lt_of_mem hc
          exact ih (by omega) (by omega)
      · rfl

/-! ## One-level unfolding equations for the wrappers -/

theorem genTree_file (pats : List String) (maxDepth : Option Int) (n : String) (s : Nat)
    (dp pfx : String) (d : Int) :
    genTree pats maxDepth (FSEntry.file n s) dp pfx d = [] := rfl

theorem genTree_dir (pats : List String) (maxDepth : Option Int) (n : String) (r : Bool)
    (ch : List FSEntry) (dp pfx : String) (d : Int) :
    genTree pats maxDepth (FSEntry.dir n r ch) dp pfx d =
      if depthExceeded maxDepth d then []
      else if r then
        genLoop pats (fun e fp px dd => genTreeF pats maxDepth (esizeList ch) e fp px dd)
          (sortEntries ch) dp pfx d 0 (countValid pats dp (sortEntries ch))
      else [] := by
  show genTreeF _ _ (esize (FSEntry.dir n r ch)) _ _ _ _ = _
  rw [esize_dir]
  rfl

theorem sortFS_file (n : String) (s : Nat) : sortFS (FSEntry.file n s) = FSEntry.file n s := rfl

theorem sortFS_dir (n : String) (r : Bool) (ch : List FSEntry) :
    sortFS (FSEntry.dir n r ch) = FSEntry.dir n r (sortEntries (ch.map sortFS)) := by
  show sortFSF (esize (FSEntry.dir n r ch)) _ = _
  rw [esize_dir]
  simp only [sortFSF]
  congr 2
  exact List.map_congr_left fun c hc =>
    sortFSF_fuel (le_of_lt (esize_lt_of_mem hc)) le_rfl

theorem pruneUnreadable_file (n : String) (s : Nat) :
    pruneUnreadable (FSEntry.file n s) = FSEntry.file n s := rfl

theorem pruneUnreadable_dir_true (n : String) (ch : List FSEntry) :
    pruneUnreadable (FSEntry.dir n true ch) =
      FSEntry.dir n true (ch.map pruneUnreadable) := by
  show pruneUnreadableF (esize (FSEntry.dir n true ch)) _ = _
  rw [esize_dir]
  simp only [pruneUnreadableF, if_pos]
  congr 1
  exact List.map_congr_left fun c hc =>
    pruneUnreadableF_fuel (le_of_lt (esize_lt_of_mem hc)) le_rfl

theorem pruneUnreadable_dir_false (n : String) (ch : List FSEntry) :
    pruneUnreadable (FSEntry.dir n false ch) = FSEntry.dir n true [] := by
  show pruneUnreadableF (esize (FSEntry.dir n false ch)) _ = _
  rw [esize_dir]
  rfl

/-! ## Walks are invariant under name-preserving transformations of the tree -/

theorem sortEntries_map {g : FSEntry → FSEntry} (hg : ∀ e, (g e).name = e.name)
    (l : List FSEntry) : sortEntries (l.map g) = (sortEntries l).map g := by
  refine (List.map_insertionSort entryLe entryLe g l fun a _ b _ => ?_).symm
  unfold entryLe strLe
  rw [hg a, hg b]

theorem countValid_map {g : FSEntry → FSEntry} (hg : ∀ e, (g e).name = e.name)
    (pats : List String) (dp : String) (l : List FSEntry) :
    countValid pats dp (l.map g) = countValid pats dp l := by
  induction l with
  | nil => rfl
  | cons e rest ih =>
    simp only [countValid, List.map_cons, List.filter_cons] at ih ⊢
    rw [hg e]
    split <;> simp only [List.length_cons, ih]

theorem genLoop_map {pats : List String} {g : FSEntry → FSEntry}
    {rec : FSEntry → String → String → Int → List RLine}
    (hname : ∀ e, (g e).name = e.name) (hdir : ∀ e, (g e).isDir = e.isDir)
    (hrec : ∀ e fp px dd, rec (g e) fp px dd = rec e fp px dd) :
    ∀ {entries : List FSEntry} {dirPath pfx : String} {depth : Int} {processed total : Nat},
    genLoop pats rec (entries.map g) dirPath pfx depth processed total =
      genLoop pats rec entries dirPath pfx depth processed total := by
  intro entries
  induction entries with
  | nil => intro _ _ _ _ _; rfl
  | cons e rest ih =>
    intro dirPath pfx depth processed total
    simp only [List.map_cons, genLoop, hname e, hdir e, hrec e]
    split
    · exact ih
    · rw [ih]

theorem analyzeLoop_map {pats : List String} {g : FSEntry → FSEntry}
    {rec : FSEntry → String → Nat → DirStats → DirStats}
    (hfile : ∀ n s, g (FSEntry.file n s) = FSEntry.file n s)
    (hdirshape : ∀ n r ch, ∃ r2 ch2, g (FSEntry.dir n r ch) = FSEntry.dir n r2 ch2)
    (hrec : ∀ e fp dd acc, rec (g e) fp dd acc = rec e fp dd acc) :
    ∀ {entries : List FSEntry} {dirPath : String} {depth : Nat} {s : DirStats},
    analyzeLoop pats rec (entries.map g) dirPath depth s =
      analyzeLoop pats rec entries dirPath depth s := by
  intro entries
  induction entries with
  | nil => intro _ _ _; rfl
  | cons e rest ih =>
    intro dirPath depth s
    cases e with
    | file n sz =>
      simp only [List.map_cons, hfile n sz, analyzeLoop]
      split
      · exact ih
      · exact ih
    | dir n r ch =>
      obtain ⟨r2, ch2, hg2⟩ := hdirshape n r ch
      have hrec2 : rec (FSEntry.dir n r2 ch2) = rec (FSEntry.dir n r ch) := by
        rw [← hg2]
        funext fp dd acc
        exact hrec _ fp dd acc
      simp only [List.map_cons, hg2, analyzeLoop, FSEntry.name]
      split
      · exact ih
      · rw [hrec2]
        exact ih

/-! ## `sortFS` preserves names, kinds and size, and leaves the rendering
unchanged (the renderer re-sorts every level itself) -/

theorem sortFS_name (e : FSEntry) : (sortFS e).name = e.name := by
  cases e with
  | file n s => rw [sortFS_file]
  | dir n r ch => rw [sortFS_dir]; rfl

theorem sortFS_isDir (e : FSEntry) : (sortFS e).isDir = e.isDir := by
  cases e with
  | file n s => rw [sortFS_file]
  | dir n r ch => rw [sortFS_dir]; rfl

theorem esizeList_map_congr {f : FSEntry → FSEntry} :
    ∀ {l : List FSEntry}, (∀ c ∈ l, esize (f c) = esize c) → esizeList (l.map f) = esizeList l
  | [], _ => rfl
  | e :: rest, h => by
    have hh := h e (List.mem_cons_self e rest)
    have ht := esizeList_map_congr fun c hc => h c (List.mem_cons_of_mem e hc)
    simp only [List.map_cons, esizeList, hh, ht]

theorem esize_sortFS (e : FSEntry) : esize (sortFS e) = esize e := by
  suffices h : ∀ (n : Nat) (e : FSEntry), esize e ≤ n → esize (sortFS e) = esize e from
    h (esize e) e le_rfl
  intro n
  induction n with
  | zero =>
    intro e h
    exact absurd h (by have := esize_pos e; omega)
  | succ n ih =>
    intro e h
    cases e with
    | file nm s => rw [sortFS_file]
    | dir nm r ch =>
      rw [sortFS_dir, esize_dir, esize_dir, esizeList_sortEntries]
      rw [esize_dir] at h
      refine congrArg (· + 1) (esizeList_map_congr fun c hc => ih c ?_)
      have := esize_lt_of_mem hc
      omega

theorem genTreeF_sortFS {pats : List String} {maxDepth : Option Int} :
    ∀ (fuel : Nat) (e : FSEntry) (dp pfx : String) (d : Int),
    genTreeF pats maxDepth fuel (sortFS e) dp pfx d = genTreeF pats maxDepth fuel e dp pfx d := by
  intro fuel
  induction fuel with
  | zero => intro e dp pfx d; rfl
  | succ fuel ih =>
    intro e dp pfx d
    cases e with
    | file n s => rw [sortFS_file]
    | dir n r ch =>
      rw [sortFS_dir]
      simp only [genTreeF]
      have h2 : sortEntries (ch.map sortFS) = (sortEntries ch).map sortFS :=
        sortEntries_map sortFS_name ch
      have h1 : sortEntries (sortEntries (ch.map sortFS)) = (sortEntries ch).map sortFS :=
        ((sorted_sortEntries (ch.map sortFS)).insertionSort_eq).trans h2
      rw [h1, countValid_map sortFS_name,
        genLoop_map sortFS_name sortFS_isDir (fun e fp px dd => ih e fp px dd)]

/-! ## `pruneUnreadable` preserves names and kinds, never increases the size,
and leaves both walks unchanged -/

theorem pruneUnreadable_name (e : FSEntry) : (pruneUnreadable e).name = e.name := by
  cases e with
  | file n s => rw [pruneUnreadable_file]
  | dir n r ch =>
    cases r
    · rw [pruneUnreadable_dir_false]; rfl
    · rw [pruneUnreadable_dir_true]; rfl

theorem pruneUnreadable_isDir (e : FSEntry) : (pruneUnreadable e).isDir = e.isDir := by
  cases e with
  | file n s => rw [pruneUnreadable_file]
  | dir n r ch =>
    cases r
    · rw [pruneUnreadable_dir_false]; rfl
    · rw [pruneUnreadable_dir_true]; rfl

theorem pruneUnreadable_dirshape (n : String) (r : Bool) (ch : List FSEntry) :
    ∃ r2 ch2, pruneUnreadable (FSEntry.dir n r ch) = FSEntry.dir n r2 ch2 := by
  cases r
  · exact ⟨true, [], pruneUnreadable_dir_false n ch⟩
  · exact ⟨true, ch.map pruneUnreadable, pruneUnreadable_dir_true n ch⟩

theorem esizeList_map_le {f : FSEntry → FSEntry} :
    ∀ {l : List FSEntry}, (∀ c ∈ l, esize (f c) ≤ esize c) → esizeList (l.map f) ≤ esizeList l
  | [], _ => le_refl 0
  | e :: rest, h => by
    have hh := h e (List.mem_cons_self e rest)
    have ht := esizeList_map_le fun c hc => h c (List.mem_cons_of_mem e hc)
    simp only [List.map_cons, esizeList]
    omega

theorem esize_pruneUnreadable_le (e : FSEntry) : esize (pruneUnreadable e) ≤ esize e := by
  suffices h : ∀ (n : Nat) (e : FSEntry), esize e ≤ n →
      esize (pruneUnreadable e) ≤ esize e from h (esize e) e le_rfl
  intro n
  induction n with
  | zero =>
    intro e h
    exact absurd h (by have := esize_pos e; omega)
  | succ n ih =>
    intro e h
    cases e with
    | file nm s => rw [pruneUnreadable_file]
    | dir nm r ch =>
      cases r
      · rw [pruneUnreadable_dir_false, esize_dir, esize_dir]
        have h0 : esizeList ([] : List FSEntry) = 0 := rfl
        omega
      · rw [pruneUnreadable_dir_true, esize_dir, esize_dir]
        rw [esize_dir] at h
        have hle : esizeList (ch.map pruneUnreadable) ≤ esizeList ch :=
          esizeList_map_le fun c hc => ih c (by have := esize_lt_of_mem hc; omega)
        omega

theorem genTreeF_pruneUnreadable {pats : List String} {maxDepth : Option Int} :
    ∀ (fuel : Nat) (e : FSEntry) (dp pfx : String) (d : Int),
    genTreeF pats maxDepth fuel (pruneUnreadable e) dp pfx d =
      genTreeF pats maxDepth fuel e dp pfx d := by
  intro fuel
  induction fuel with
  | zero => intro e dp pfx d; rfl
  | succ fuel ih =>
    intro e dp pfx d
    cases e with
    | file n s => rw [pruneUnreadable_file]
    | dir n r ch =>
      cases r
      · rw [pruneUnreadable_dir_false]
        simp only [genTreeF]
        split <;> rfl
      · rw [pruneUnreadable_dir_true]
        simp only [genTreeF]
        rw [sortEntries_map pruneUnreadable_name, countValid_map pruneUnreadable_name,
          genLoop_map pruneUnreadable_name pruneUnreadable_isDir
            (fun e fp px dd => ih e fp px dd)]

theorem analyzeDirF_pruneUnreadable {pats : List String} :
    ∀ (fuel : Nat) (e : FSEntry) (dp : String) (d : Nat) (s : DirStats),
    analyzeDirF pats fuel (pruneUnreadable e) dp d s = analyzeDirF pats fuel e dp d s := by
  intro fuel
  induction fuel with
  | zero => intro e dp d s; rfl
  | succ fuel ih =>
    intro e dp d s
    cases e with
    | file n sz => rw [pruneUnreadable_file]
    | dir n r ch =>
      cases r
      · rw [pruneUnreadable_dir_false]
        simp only [analyzeDirF]
        rfl
      · rw [pruneUnreadable_dir_true]
        simp only [analyzeDirF]
        rw [analyzeLoop_map pruneUnreadable_file pruneUnreadable_dirshape
          (fun e fp dd acc => ih e fp dd acc)]

/-! ## Exclusion completeness (C1) -/

theorem genLoop_not_ignored {pats : List String}
    {rec : FSEntry → String → String → Int → List RLine}
    (hrec : ∀ e fp px dd r, r ∈ rec e fp px dd → should_ignore r.path pats = false) :
    ∀ {entries : List FSEntry} {dirPath pfx : String} {depth : Int} {processed total : Nat}
      (r : RLine), r ∈ genLoop pats rec entries dirPath pfx depth processed total →
    should_ignore r.path pats = false := by
  intro entries
  induction entries with
  | nil => intro _ _ _ _ _ r hr; simp [genLoop] at hr
  | cons e rest ih =>
    intro dirPath pfx depth processed total r hr
    simp only [genLoop] at hr
    split at hr
    · exact ih r hr
    · rcases List.mem_cons.mp hr with rfl | hr2
      · next h =>
        exact Bool.eq_false_iff.mpr h
      · rcases List.mem_append.mp hr2 with hsub | hrest
        · split at hsub
          · exact hrec _ _ _ _ r hsub
          · simp at hsub
        · exact ih r hrest

theorem genTreeF_not_ignored {pats : List String} {maxDepth : Option Int} :
    ∀ (fuel : Nat) (e : FSEntry) (dp pfx : String) (d : Int) (r : RLine),
    r ∈ genTreeF pats maxDepth fuel e dp pfx d → should_ignore r.path pats = false := by
  intro fuel
  induction fuel with
  | zero => intro e dp pfx d r hr; simp [genTreeF] at hr
  | succ fuel ih =>
    intro e dp pfx d r hr
    match e with
    | FSEntry.file n s => simp [genTreeF] at hr
    | FSEntry.dir n rd ch =>
      simp only [genTreeF] at hr
      split at hr
      · simp at hr
      · split at hr
        · exact genLoop_not_ignored (fun e fp px dd r hr => ih e fp px dd r hr) r hr
        · simp at hr

/-! ## Depth bounds of rendered lines -/

theorem genLoop_depth_ge {pats : List String}
    {rec : FSEntry → String → String → Int → List RLine}
    (hrec : ∀ e fp px (dd : Int) r, r ∈ rec e fp px dd → dd ≤ r.depth) :
    ∀ {entries : List FSEntry} {dp pfx : String} {depth : Int} {processed total : Nat},
    ∀ r ∈ genLoop pats rec entries dp pfx depth processed total, depth ≤ r.depth := by
  intro entries
  induction entries with
  | nil => intro _ _ _ _ _ r hr; simp [genLoop] at hr
  | cons e rest ih =>
    intro dp pfx depth processed total r hr
    simp only [genLoop] at hr
    split at hr
    · exact ih r hr
    · rcases List.mem_cons.mp hr with rfl | hr2
      · exact le_refl _
      · rcases List.mem_append.mp hr2 with hsub | hrest
        · split at hsub
          · have := hrec _ _ _ _ r hsub
            omega
          · simp at hsub
        · exact ih r hrest

theorem genTreeF_depth_ge {pats : List String} {maxDepth : Option Int} :
    ∀ (fuel : Nat) (e : FSEntry) (dp pfx : String) (d : Int) (r : RLine),
    r ∈ genTreeF pats maxDepth fuel e dp pfx d → d ≤ r.depth := by
  intro fuel
  induction fuel with
  | zero => intro e dp pfx d r hr; simp [genTreeF] at hr
  | succ fuel ih =>
    intro e dp pfx d r hr
    match e with
    | FSEntry.file n s => simp [genTreeF] at hr
    | FSEntry.dir n rd ch =>
      simp only [genTreeF] at hr
      split at hr
      · simp at hr
      · split at hr
        · exact genLoop_depth_ge (fun e fp px dd r h => ih e fp px dd r h) r hr
        · simp at hr

theorem genLoop_depth_le {pats : List String} {m : Int}
    {rec : FSEntry → String → String → Int → List RLine}
    (hrec : ∀ e fp px dd r, r ∈ rec e fp px dd → r.depth ≤ m) :
    ∀ {entries : List FSEntry} {dp pfx : String} {depth : Int} {processed total : Nat},
    depth ≤ m →
    ∀ r ∈ genLoop pats rec entries dp pfx depth processed total, r.depth ≤ m := by
  intro entries
  induction entries with
  | nil => intro _ _ _ _ _ _ r hr; simp [genLoop] at hr
  | cons e rest ih =>
    intro dp pfx depth processed total hd r hr
    simp only [genLoop] at hr
    split at hr
    · exact ih hd r hr
    · rcases List.mem_cons.mp hr with rfl | hr2
      · exact hd
      · rcases List.mem_append.mp hr2 with hsub | hrest
        · split at hsub
          · exact hrec _ _ _ _ r hsub
          · simp at hsub
        · exact ih hd r hrest

theorem genTreeF_depth_le {pats : List String} {m : Int} :
    ∀ (fuel : Nat) (e : FSEntry) (dp pfx : String) (d : Int) (r : RLine),
    r ∈ genTreeF pats (some m) fuel e dp pfx d → r.depth ≤ m := by
  intro fuel
  induction fuel with
  | zero => intro e dp pfx d r hr; simp [genTreeF] at hr
  | succ fuel ih =>
    intro e dp pfx d r hr
    match e with
    | FSEntry.file n s => simp [genTreeF] at hr
    | FSEntry.dir n rd ch =>
      simp only [genTreeF] at hr
      split at hr
      · simp at hr
      · next hguard =>
        have hd : d ≤ m := by
          simp [depthExceeded] at hguard
          omega
        split at hr
        · exact genLoop_depth_le (fun e fp px dd r h => ih e fp px dd r h) hd r hr
        · simp at hr

/-! ## Completeness of depth-limited rendering (C2, second half) -/

theorem filteredLoop_depth_ge {pats : List String}
    {rec : FSEntry → String → Int → List (String × Int)}
    (hrec : ∀ e fp (dd : Int) pd, pd ∈ rec e fp dd → dd ≤ pd.2) :
    ∀ {entries : List FSEntry} {dp : String} {depth : Int},
    ∀ pd ∈ filteredLoop pats rec entries dp depth, depth ≤ pd.2 := by
  intro entries
  induction entries with
  | nil => intro _ _ pd hpd; simp [filteredLoop] at hpd
  | cons e rest ih =>
    intro dp depth pd hpd
    simp only [filteredLoop] at hpd
    split at hpd
    · exact ih pd hpd
    · rcases List.mem_cons.mp hpd with rfl | hpd2
      · exact le_refl _
      · rcases List.mem_append.mp hpd2 with hsub | hrest
        · split at hsub
          · have := hrec _ _ _ pd hsub
            omega
          · simp at hsub
        · exact ih pd hrest

theorem filteredEntriesF_depth_ge {pats : List String} :
    ∀ (fuel : Nat) (e : FSEntry) (dp : String) (d : Int) (pd : String × Int),
    pd ∈ filteredEntriesF pats fuel e dp d → d ≤ pd.2 := by
  intro fuel
  induction fuel with
  | zero => intro e dp d pd hpd; simp [filteredEntriesF] at hpd
  | succ fuel ih =>
    intro e dp d pd hpd
    match e with
    | FSEntry.file n s => simp [filteredEntriesF] at hpd
    | FSEntry.dir n rd ch =>
      simp only [filteredEntriesF] at hpd
      exact filteredLoop_depth_ge (fun e fp dd pd h => ih e fp dd pd h) pd hpd

theorem filteredLoop_complete {pats : List String} {m : Int}
    {recF : FSEntry → String → Int → List (String × Int)}
    {recG : FSEntry → String → String → Int → List RLine} :
    ∀ {entries : List FSEntry} {dp pfx : String} {depth : Int} {processed total : Nat},
    (∀ e ∈ entries, AllReadable e → ∀ fp (dd : Int) pd, pd ∈ recF e fp dd → pd.2 ≤ m →
      ∀ px, ∃ r ∈ recG e fp px dd, r.path = pd.1 ∧ r.depth = pd.2) →
    (∀ e ∈ entries, AllReadable e) →
    ∀ pd ∈ filteredLoop pats recF entries dp depth, pd.2 ≤ m →
    ∃ r ∈ genLoop pats recG entries dp pfx depth processed total,
      r.path = pd.1 ∧ r.depth = pd.2 := by
  intro entries
  induction entries with
  | nil => intro _ _ _ _ _ _ _ pd hpd; simp [filteredLoop] at hpd
  | cons e rest ih =>
    intro dp pfx depth processed total hrec har pd hpd hple
    have harh := har e (List.mem_cons_self e rest)
    have hart : ∀ e' ∈ rest, AllReadable e' := fun e' he' => har e' (List.mem_cons_of_mem e he')
    have hrect : ∀ e' ∈ rest, AllReadable e' → ∀ fp (dd : Int) pd, pd ∈ recF e' fp dd →
        pd.2 ≤ m → ∀ px, ∃ r ∈ recG e' fp px dd, r.path = pd.1 ∧ r.depth = pd.2 :=
      fun e' he' => hrec e' (List.mem_cons_of_mem e he')
    simp only [filteredLoop] at hpd
    simp only [genLoop]
    split at hpd
    · next hig =>
      rw [if_pos hig]
      exact ih hrect hart pd hpd hple
    · next hig =>
      rw [if_neg hig]
      rcases List.mem_cons.mp hpd with rfl | hpd2
      · exact ⟨RLine.mk _ _ _ _ depth, List.mem_cons_self _ _, rfl, rfl⟩
      · rcases List.mem_append.mp hpd2 with hsub | hrest
        · split at hsub
          · next hdir =>
            obtain ⟨r, hrmem, hrp, hrd⟩ :=
              hrec e (List.mem_cons_self e rest) harh _ _ pd hsub hple _
            refine ⟨r, List.mem_cons_of_mem _ (List.mem_append_left _ ?_), hrp, hrd⟩
            rw [if_pos hdir]
            exact hrmem
          · simp at hsub
        · obtain ⟨r, hrmem, hrp, hrd⟩ := ih hrect hart pd hrest hple
          exact ⟨r, List.mem_cons_of_mem _ (List.mem_append_right _ hrmem), hrp, hrd⟩

theorem genTreeF_complete {pats : List String} {m : Int} :
    ∀ (fuel : Nat) (e : FSEntry) (dp pfx : String) (d : Int), AllReadable e →
    ∀ pd ∈ filteredEntriesF pats fuel e dp d, pd.2 ≤ m →
    ∃ r ∈ genTreeF pats (some m) fuel e dp pfx d, r.path = pd.1 ∧ r.depth = pd.2 := by
  intro fuel
  induction fuel with
  | zero => intro e dp pfx d _ pd hpd; simp [filteredEntriesF] at hpd
  | succ fuel ih =>
    intro e dp pfx d har pd hpd hple
    match e, har with
    | FSEntry.file n s, _ => simp [filteredEntriesF] at hpd
    | FSEntry.dir n _ ch, AllReadable.dir _ _ hch =>
      simp only [filteredEntriesF] at hpd
      simp only [genTreeF]
      have hdge : d ≤ pd.2 :=
        filteredLoop_depth_ge (fun e fp dd pd h => filteredEntriesF_depth_ge fuel e fp dd pd h)
          pd hpd
      have hguard : depthExceeded (some m) d = false := by
        simp [depthExceeded]
        omega
      rw [hguard]
      simp only [Bool.false_eq_true, if_false, if_true]
      exact filteredLoop_complete
        (fun e' he' har' fp dd pd' hpd' hple' px => ih e' fp px dd har' pd' hpd' hple')
        (fun e' he' => hch e' (mem_sortEntries.mp he'))
        pd hpd hple

/-! ## Terminal-glyph correctness (C7) -/

theorem genLoop_level {pats : List String} {d : Int}
    {rec : FSEntry → String → String → Int → List RLine}
    (hrec : ∀ e fp px r, r ∈ rec e fp px (d + 1) → d + 1 ≤ r.depth) :
    ∀ {entries : List FSEntry} {dp pfx : String} {processed total : Nat},
    (genLoop pats rec entries dp pfx d processed total).filter (fun r => r.depth == d) =
      levelGlyphs (entries.filter (fun e => !should_ignore (joinPath dp e.name) pats))
        dp pfx d processed total := by
  intro entries
  induction entries with
  | nil => intro _ _ _ _; rfl
  | cons e rest ih =>
    intro dp pfx processed total
    simp only [genLoop, List.filter_cons]
    split
    · next hig =>
      have : (!should_ignore (joinPath dp e.name) pats) = false := by
        simp [hig]
      rw [this]
      exact ih
    · next hig =>
      have : (!should_ignore (joinPath dp e.name) pats) = true := by
        simp
        exact Bool.eq_false_iff.mpr hig
      rw [this]
      simp only [List.filter_cons, List.filter_append]
      have hhead : ((d == d) : Bool) = true := by simp
      rw [hhead]
      have hsub : ((if e.isDir then rec e (joinPath dp e.name)
          (pfx ++ if processed + 1 == total then "    " else "│   ") (d + 1) else []).filter
            (fun r => r.depth == d)) = [] := by
        split
        · refine List.filter_eq_nil_iff.mpr fun r hr => ?_
          have := hrec _ _ _ r hr
          simp only [beq_iff_eq]
          intro hcontra
          omega
        · rfl
      simp only [levelGlyphs]
      rw [hsub]
      simp only [List.nil_append, if_true]
      exact congrArg _ ih

theorem getLastD_mem_cons (b : FSEntry) :
    ∀ (t : List FSEntry) (dflt : FSEntry), (b :: t).getLastD dflt ∈ b :: t
  | [], _ => List.mem_singleton.mpr rfl
  | c :: t, dflt => List.mem_cons_of_mem b (getLastD_mem_cons c t dflt)

theorem sorted_le_getLastD {l : List FSEntry} (h : List.Sorted entryLe l)
    (dflt : FSEntry) : ∀ c ∈ l, entryLe c (l.getLastD dflt) := by
  induction l with
  | nil => intro c hc; simp at hc
  | cons a t ih =>
    intro c hc
    match t with
    | [] =>
      rw [List.mem_singleton.mp hc]
      exact refl_of entryLe _
    | b :: t2 =>
      rcases List.mem_cons.mp hc with rfl | hc2
      · have hlast : (b :: t2).getLastD dflt ∈ b :: t2 := getLastD_mem_cons b t2 dflt
        exact (List.sorted_cons.mp h).1 _ hlast
      · exact ih (List.sorted_cons.mp h).2 c hc2

theorem sorted_survivors (pats : List String) (dp : String) (ch : List FSEntry) :
    List.Sorted entryLe (survivors pats dp ch) :=
  (sorted_sortEntries ch).filter _

theorem levelGlyphs_cons_mid (e : FSEntry) (t : List FSEntry) (dp pfx : String) (d : Int)
    (processed total : Nat) (h : (processed + 1 == total) = false) :
    levelGlyphs (e :: t) dp pfx d processed total =
      RLine.mk (pfx ++ "├── " ++ e.name) (joinPath dp e.name) e.name "├── " d ::
        levelGlyphs t dp pfx d (processed + 1) total := by
  simp only [levelGlyphs, h, Bool.false_eq_true, if_false]

theorem getLastD_default_irrel (b : FSEntry) :
    ∀ (t : List FSEntry) (d₁ d₂ : FSEntry), (b :: t).getLastD d₁ = (b :: t).getLastD d₂
  | [], _, _ => rfl
  | _ :: _, _, _ => rfl

theorem levelGlyphs_shape :
    ∀ (valid : List FSEntry) (dp pfx : String) (d : Int) (processed : Nat), valid ≠ [] →
    (levelGlyphs valid dp pfx d processed (processed + valid.length)).map
        (fun r => (r.ename, r.branch)) =
      (valid.dropLast.map (fun e => (e.name, "├── "))) ++
        [((valid.getLastD (FSEntry.file "" 0)).name, "└── ")]
  | [], _, _, _, _, hne => absurd rfl hne
  | [x], dp, pfx, d, processed, _ => by
    have h1 : (processed + 1 == processed + [x].length) = true := by
      simp
    simp [levelGlyphs, h1]
  | x :: y :: rest, dp, pfx, d, processed, _ => by
    have hne2 : y :: rest ≠ [] := by simp
    have hlen : processed + (x :: y :: rest).length = (processed + 1) + (y :: rest).length := by
      simp only [List.length_cons]
      omega
    have hnl : ((processed + 1 == processed + (x :: y :: rest).length) : Bool) = false := by
      simp only [List.length_cons, beq_eq_false_iff_ne]
      omega
    rw [levelGlyphs_cons_mid x (y :: rest) dp pfx d processed _ hnl, List.map_cons, hlen,
      levelGlyphs_shape (y :: rest) dp pfx d (processed + 1) hne2]
    have hd : (x :: y :: rest).dropLast = x :: (y :: rest).dropLast := List.dropLast_cons₂
    have hg : (x :: y :: rest).getLastD (FSEntry.file "" 0) =
        (y :: rest).getLastD (FSEntry.file "" 0) := by
      rw [List.getLastD_cons]
      exact getLastD_default_irrel y rest x (FSEntry.file "" 0)
    rw [hd, hg, List.map_cons, List.cons_append]

/-! ## Helper facts for the witnesses -/

theorem fs3_allReadable : AllReadable fs3 := by
  refine AllReadable.dir "r" _ fun c hc => ?_
  rcases List.mem_cons.mp hc with rfl | hc
  · refine AllReadable.dir "src" _ fun c hc => ?_
    rw [List.mem_singleton.mp hc]
    exact AllReadable.file "main.py" 20
  · rw [List.mem_singleton.mp hc]
    refine AllReadable.dir "docs" _ fun c hc => ?_
    rw [List.mem_singleton.mp hc]
    exact AllReadable.file "index.html" 30

theorem filterMap_strip_eq (p : String → Bool) :
    ∀ ls : List String,
    ls.filterMap (fun line => if p (pyStrip line) then some (pyStrip line) else none) =
      (ls.map pyStrip).filter p
  | [] => rfl
  | a :: t => by
    by_cases h : p (pyStrip a)
    · simp only [List.filterMap_cons, List.map_cons, List.filter_cons, h, if_true,
        filterMap_strip_eq p t]
    · simp only [List.filterMap_cons, List.map_cons, List.filter_cons, h,
        Bool.false_eq_true, if_false, filterMap_strip_eq p t]

theorem genTreeF_guard {pats : List String} {m : Int} (fuel : Nat) (e : FSEntry)
    (dp pfx : String) (d : Int) (h : m < d) :
    genTreeF pats (some m) fuel e dp pfx d = [] := by
  match fuel, e with
  | 0, _ => rfl
  | _ + 1, FSEntry.file _ _ => rfl
  | fuel + 1, FSEntry.dir n r ch =>
    have hg : depthExceeded (some m) d = true := by
      simp [depthExceeded]
      omega
    simp only [genTreeF, hg, if_true]

/-! ## The claims -/

/-- C1: for every root directory, every pattern list, every depth limit and
statistics flag, no line appended by `_generate_tree` (the tree portion of
the string `generate_directory_tree` returns, which is exactly
`basename rootPath` followed by the `text` fields of these lines) renders an
entry whose base name or full path matches a pattern in the list: every
matched entry is omitted from the output and from recursion. -/
theorem c1_exclusion_completeness (pats : List String) (maxDepth : Option Int)
    (e : FSEntry) (dirPath pfx : String) (depth : Int) (r : RLine)
    (hr : r ∈ genTree pats maxDepth e dirPath pfx depth) :
    should_ignore r.path pats = false :=
  genTreeF_not_ignored (esize e) e dirPath pfx depth r hr

/-- Witness for C1: a concrete rendered line of a concrete tree, with an
unmatched path. -/
theorem c1_exclusion_completeness_witness :
    RLine.mk "├── docs" "/r/docs" "docs" "├── " 0 ∈
      genTree default_ignore_patterns none fs3 "/r" "" 0 ∧
    should_ignore (RLine.mk "├── docs" "/r/docs" "docs" "├── " 0).path
      default_ignore_patterns = false :=
  ⟨by decide, c1_exclusion_completeness default_ignore_patterns none fs3 "/r" "" 0
    (RLine.mk "├── docs" "/r/docs" "docs" "├── " 0) (by decide)⟩

/-- C2: with a configured maximum depth `m`, (1) every rendered line has
depth at most `m` (depth 0 being the root's immediate children), so entries
past the limit are not listed at all; and (2) on a fully readable tree,
every entry of the filtered subtree whose depth is at most `m` is rendered
(with its exact path and depth). -/
theorem c2_depth_limit (pats : List String) (m : Int) (e : FSEntry)
    (dp pfx : String) (d : Int) :
    (∀ r ∈ genTree pats (some m) e dp pfx d, r.depth ≤ m) ∧
    (AllReadable e →
      ∀ pd ∈ filteredEntries pats e dp d, pd.2 ≤ m →
        ∃ r ∈ genTree pats (some m) e dp pfx d, r.path = pd.1 ∧ r.depth = pd.2) := by
  constructor
  · intro r hr
    exact genTreeF_depth_le (esize e) e dp pfx d r hr
  · intro har pd hpd hple
    exact genTreeF_complete (esize e) e dp pfx d har pd hpd hple

/-- Witness for C2: on the C3 scenario tree with depth limit 1, the depth-1
entry `main.py` is rendered. -/
theorem c2_depth_limit_witness :
    ∃ r ∈ genTree default_ignore_patterns (some 1) fs3 "/r" "" 0,
      r.path = "/r/src/main.py" ∧ r.depth = 1 :=
  (c2_depth_limit default_ignore_patterns 1 fs3 "/r" "" 0).2 fs3_allReadable
    ("/r/src/main.py", 1) (by decide) (by decide)

/-- C3 counterexample: on the scenario root `{src/{main.py},
docs/{index.html}}` with depth limit 1, the output does list `main.py` and
`index.html` (they are at depth 1, which does not exceed the limit), contrary
to the claim. -/
theorem c3_depth1_scenario_counterexample :
    generate_directory_tree fs3 "/r" none (some 1) false =
      "r\n├── docs\n│   └── index.html\n└── src\n    └── main.py" ∧
    (genTree default_ignore_patterns (some 1) fs3 "/r" "" 0).map RLine.ename =
      ["docs", "index.html", "src", "main.py"] :=
  ⟨by decide, by decide⟩

/-- C3 amended: with depth limit 1 the output lists `src`, `docs` and also
their depth-1 children `index.html` and `main.py`; the output the claim
describes (only `src` and `docs`) is produced by depth limit 0; and the
statistics, which ignore the depth limit, report `fileCount = 2` (the
`Total Files: 2` line) in the depth-limited output. -/
theorem c3_depth1_scenario_amended :
    generate_directory_tree fs3 "/r" none (some 1) true =
      "r\n├── docs\n│   └── index.html\n└── src\n    └── main.py\n" ++
        "\n========================================\nDirectory Statistics:\n" ++
        "Total Files: 2\nTotal Directories: 2\nMaximum Depth: 1\nTotal Size: 50.00 B B\n" ++
        "\nTop File Extensions:\n  .py: 1 files\n  .html: 1 files" ∧
    generate_directory_tree fs3 "/r" none (some 0) false = "r\n├── docs\n└── src" ∧
    (calculate_directory_stats fs3 "/r" default_ignore_patterns).file_count = 2 :=
  ⟨by decide, by decide, by decide⟩

/-- C4: what `format_size` actually returns on the inputs of the claim.  The
f-string in the source already contains the unit, so the `rstrip` calls never
trim the digits (the string ends with the unit letter) and the unit is then
appended a second time: the code returns `"0.00 B B"` where its own test
suite (`tests_directory_statistics.py::test_format_size`) and docstring
example (`"4.2 MB"`) require `"0 B"`. -/
theorem c4_format_size_actual :
    format_size 0 = "0.00 B B" ∧ format_size 1023 = "1023.00 B B" ∧
    format_size 1024 = "1.00 KB KB" ∧ format_size 1536 = "1.50 KB KB" ∧
    format_size 1048576 = "1.00 MB MB" ∧ format_size 1073741824 = "1.00 GB GB" ∧
    format_size 1099511627776 = "1.00 TB TB" :=
  ⟨by decide, by decide, by decide, by decide, by decide, by decide, by decide⟩

/-- C5 counterexample: when the caller supplies custom patterns, the
defaults are not unioned in: with patterns `["foo"]` a `.git` directory is
rendered, although `.git` matches the default pattern set. -/
theorem c5_custom_patterns_counterexample :
    generate_directory_tree fs5 "/r" (some ["foo"]) none false = "r\n└── .git" ∧
    should_ignore (joinPath "/r" ".git") default_ignore_patterns = true :=
  ⟨by decide, by decide⟩

/-- C5 amended: `generate_directory_tree` uses the defaults only when the
caller passes no pattern list; a caller-supplied list replaces them
entirely.  The union of defaults and custom patterns is produced by
`load_ignore_file` in `ignore_handler.py`, which prepends the defaults to
the stripped non-comment non-empty lines of the `.e3ignore` file (and
returns the defaults alone when no such file exists). -/
theorem c5_custom_patterns_amended (root : FSEntry) (rootPath : String)
    (md : Option Int) (b : Bool) (ps : List String) (ls : List String) :
    activePatterns (some ps) = ps ∧
    activePatterns none = default_ignore_patterns ∧
    load_ignore_file none = default_ignore_patterns ∧
    load_ignore_file (some ls) =
      default_ignore_patterns ++
        (ls.map pyStrip).filter (fun t => !t.data.isEmpty && !pyStartsWith t "#") ∧
    generate_directory_tree root rootPath none md b =
      generate_directory_tree root rootPath (some default_ignore_patterns) md b := by
  refine ⟨rfl, rfl, rfl, ?_, rfl⟩
  simp only [load_ignore_file]
  exact congrArg (default_ignore_patterns ++ ·)
    (filterMap_strip_eq (fun t => !t.data.isEmpty && !pyStartsWith t "#") ls)

/-- C6 counterexample: the predicate used by the renderer and the aggregator
is `should_ignore` (fnmatch on base name or full path).  A pattern ending in
`/` matches neither the named directory itself nor entries beneath it, and
literal characters compare case-sensitively (POSIX `fnmatch`). -/
theorem c6_trailing_slash_counterexample :
    should_ignore "/r/foo" ["foo/"] = false ∧
    should_ignore "/r/foo/bar" ["foo/"] = false ∧
    should_ignore "/r/FOO" ["foo"] = false :=
  ⟨by decide, by decide, by decide⟩

/-- C6 amended: `should_ignore` applies case-sensitive fnmatch to the base
name and the full path; the claimed trailing-slash and case-insensitive
semantics live only in `ignore_handler.is_path_ignored` (which matches
`foo/` against paths strictly beneath `foo/`, case-insensitively, but not
against the bare directory path), and the tree generator does not call it. -/
theorem c6_matching_amended :
    (∀ path pats, should_ignore path pats =
      pats.any (fun pattern => fnmatch (basename path) pattern || fnmatch path pattern)) ∧
    is_path_ignored "foo/bar" ["foo/"] = true ∧
    is_path_ignored "FOO/baR" ["foo/"] = true ∧
    is_path_ignored "foo" ["foo/"] = false :=
  ⟨fun _ _ => rfl, by decide, by decide, by decide⟩

/-- C7: at a readable directory level within the depth limit and with at
least one surviving child, the lines rendered at that level carry exactly
the surviving children in sort order; all but the last use the mid branch
glyph and precisely the last (which is greatest in the sort order among the
survivors) uses the terminal glyph — the terminal glyph appears exactly
once, however many siblings were filtered out. -/
theorem c7_terminal_glyph (pats : List String) (maxDepth : Option Int) (n : String)
    (ch : List FSEntry) (dp pfx : String) (d : Int)
    (hdepth : depthExceeded maxDepth d = false)
    (hne : survivors pats dp ch ≠ []) :
    ((genTree pats maxDepth (FSEntry.dir n true ch) dp pfx d).filter
        (fun r => r.depth == d)).map (fun r => (r.ename, r.branch)) =
      ((survivors pats dp ch).dropLast.map (fun e => (e.name, "├── "))) ++
        [(lastSurvivorName pats dp ch, "└── ")] ∧
    (((genTree pats maxDepth (FSEntry.dir n true ch) dp pfx d).filter
        (fun r => r.depth == d)).map (fun r => r.branch)).count "└── " = 1 ∧
    (∀ c ∈ survivors pats dp ch, strLe c.name (lastSurvivorName pats dp ch) = true) := by
  have htot : countValid pats dp (sortEntries ch) = 0 + (survivors pats dp ch).length := by
    simp [countValid, survivors]
  have hlev : (genTree pats maxDepth (FSEntry.dir n true ch) dp pfx d).filter
      (fun r => r.depth == d) =
      levelGlyphs (survivors pats dp ch) dp pfx d 0 (0 + (survivors pats dp ch).length) := by
    rw [genTree_dir, hdepth]
    simp only [Bool.false_eq_true, if_false, if_true]
    rw [htot]
    exact genLoop_level
      (fun e fp px r hr => genTreeF_depth_ge (esizeList ch) e fp px (d + 1) r hr)
  have hshape := levelGlyphs_shape (survivors pats dp ch) dp pfx d 0 hne
  have h1 : ((genTree pats maxDepth (FSEntry.dir n true ch) dp pfx d).filter
      (fun r => r.depth == d)).map (fun r => (r.ename, r.branch)) =
      ((survivors pats dp ch).dropLast.map (fun e => (e.name, "├── "))) ++
        [(lastSurvivorName pats dp ch, "└── ")] := by
    rw [hlev]
    exact hshape
  refine ⟨h1, ?_, ?_⟩
  · have hmm : ((genTree pats maxDepth (FSEntry.dir n true ch) dp pfx d).filter
        (fun r => r.depth == d)).map (fun r => r.branch) =
        (((survivors pats dp ch).dropLast.map (fun e => (e.name, "├── "))) ++
          [(lastSurvivorName pats dp ch, "└── ")]).map Prod.snd := by
      rw [← h1, List.map_map]
      rfl
    rw [hmm, List.map_append, List.map_map, List.count_append]
    have h0 : (((survivors pats dp ch).dropLast.map
        (Prod.snd ∘ fun e => (e.name, "├── ")))).count "└── " = 0 := by
      refine List.count_eq_zero.mpr fun hmem => ?_
      obtain ⟨e, _, he⟩ := List.mem_map.mp hmem
      simp only [Function.comp] at he
      exact absurd he (by decide)
    rw [h0]
    rfl
  · intro c hc
    exact sorted_le_getLastD (sorted_survivors pats dp ch) (FSEntry.file "" 0) c hc

/-- Witness for C7 on a concrete directory with one filtered-out child and
two survivors. -/
theorem c7_terminal_glyph_witness :
    ((genTree default_ignore_patterns none (FSEntry.dir "r" true ch7) "/r" "" 0).filter
        (fun r => r.depth == 0)).map (fun r => (r.ename, r.branch)) =
      ((survivors default_ignore_patterns "/r" ch7).dropLast.map
        (fun e => (e.name, "├── "))) ++
        [(lastSurvivorName default_ignore_patterns "/r" ch7, "└── ")] ∧
    (((genTree default_ignore_patterns none (FSEntry.dir "r" true ch7) "/r" "" 0).filter
        (fun r => r.depth == 0)).map (fun r => r.branch)).count "└── " = 1 ∧
    (∀ c ∈ survivors default_ignore_patterns "/r" ch7,
      strLe c.name (lastSurvivorName default_ignore_patterns "/r" ch7) = true) :=
  c7_terminal_glyph default_ignore_patterns none "r" ch7 "/r" "" 0 (by decide)
    (fun h => absurd (congrArg List.length h) (by decide))

/-- C8 counterexample: with statistics enabled the output is not independent
of directory-listing order: `fsA` and `fsB` are the same snapshot (same
`sortFS` image) listed in two orders, yet the rendered strings differ — the
tie among the equally frequent extensions `.x` and `.y` is broken by
encounter order, which follows the listing order. -/
theorem c8_stats_order_counterexample :
    sortFS fsA = sortFS fsB ∧
    generate_directory_tree fsA "/r" none none true ≠
      generate_directory_tree fsB "/r" none none true :=
  ⟨rfl, by decide⟩

/-- C8 amended: `generate_directory_tree` is deterministic, and without
statistics its output is independent of directory-listing order: any two
trees denoting the same snapshot (equal `sortFS` canonical forms) render to
byte-identical strings, because every level is sorted before rendering.
With `include_stats`, the tie-break among equally frequent extensions
follows the listing order (see the counterexample). -/
theorem c8_order_invariance (e₁ e₂ : FSEntry) (rootPath : String)
    (ignorePatterns : Option (List String)) (maxDepth : Option Int)
    (h : sortFS e₁ = sortFS e₂) :
    generate_directory_tree e₁ rootPath ignorePatterns maxDepth false =
      generate_directory_tree e₂ rootPath ignorePatterns maxDepth false := by
  have hes : esize e₁ = esize e₂ := by
    rw [← esize_sortFS e₁, h, esize_sortFS]
  have htree : genTree (activePatterns ignorePatterns) maxDepth e₁ rootPath "" 0 =
      genTree (activePatterns ignorePatterns) maxDepth e₂ rootPath "" 0 := by
    unfold genTree
    rw [← genTreeF_sortFS (esize e₁) e₁, h, hes, genTreeF_sortFS]
  simp only [generate_directory_tree, Bool.false_eq_true, if_false]
  rw [htree]

/-- Witness for C8 (amended): the two listing orders of the same snapshot
render identically without statistics. -/
theorem c8_order_invariance_witness :
    generate_directory_tree fsA "/r" none none false =
      generate_directory_tree fsB "/r" none none false :=
  c8_order_invariance fsA fsB "/r" none none rfl

/-- C9: a directory whose listing fails (`PermissionError` /
`FileNotFoundError`, the unreadable flag of the model) is treated by both
the renderer and the statistics aggregator exactly as a directory with no
children: replacing every unreadable directory by an empty readable one
(`pruneUnreadable`) changes neither the rendered string nor the statistics
block, for any arguments.  In particular the walk always continues past such
nodes and `generate_directory_tree` still returns the complete string (in
this embedding it is a total function). -/
theorem c9_unreadable_as_empty (root : FSEntry) (rootPath : String)
    (ignorePatterns : Option (List String)) (maxDepth : Option Int) (includeStats : Bool) :
    generate_directory_tree (pruneUnreadable root) rootPath ignorePatterns maxDepth
        includeStats =
      generate_directory_tree root rootPath ignorePatterns maxDepth includeStats := by
  have htree : genTree (activePatterns ignorePatterns) maxDepth (pruneUnreadable root)
      rootPath "" 0 = genTree (activePatterns ignorePatterns) maxDepth root rootPath "" 0 := by
    unfold genTree
    rw [genTreeF_fuel (le_refl _) (esize_pruneUnreadable_le root),
      genTreeF_pruneUnreadable]
  have hstats : calculate_directory_stats (pruneUnreadable root) rootPath
      (activePatterns ignorePatterns) =
      calculate_directory_stats root rootPath (activePatterns ignorePatterns) := by
    unfold calculate_directory_stats
    rw [analyzeDirF_fuel (le_refl _) (esize_pruneUnreadable_le root),
      analyzeDirF_pruneUnreadable]
  simp only [generate_directory_tree]
  rw [htree, hstats]

/-- C10: if `generate_directory_tree` is called with a negative `max_depth`,
the guard `depth > max_depth` fires already at the root call, so the tree
portion of the output is exactly the single root line; when `include_stats`
is set the full statistics block over the whole filtered subtree is still
appended. -/
theorem c10_negative_max_depth (root : FSEntry) (rootPath : String)
    (ignorePatterns : Option (List String)) (m : Int) (b : Bool) (hm : m < 0) :
    genTree (activePatterns ignorePatterns) (some m) root rootPath "" 0 = [] ∧
    generate_directory_tree root rootPath ignorePatterns (some m) b =
      String.intercalate "\n" (basename rootPath ::
        (if b then statsLines (calculate_directory_stats root rootPath
          (activePatterns ignorePatterns)) else [])) := by
  have h0 : genTree (activePatterns ignorePatterns) (some m) root rootPath "" 0 = [] :=
    genTreeF_guard (esize root) root rootPath "" 0 (by omega)
  refine ⟨h0, ?_⟩
  simp only [generate_directory_tree]
  rw [h0]
  cases b
  · simp
  · simp

/-- Witness for C10 at `max_depth = -1`. -/
theorem c10_negative_max_depth_witness :
    genTree (activePatterns none) (some (-1)) fsW "/r" "" 0 = [] ∧
    generate_directory_tree fsW "/r" none (some (-1)) true =
      String.intercalate "\n" (basename "/r" ::
        (if true then statsLines (calculate_directory_stats fsW "/r" (activePatterns none))
         else [])) :=
  c10_negative_max_depth fsW "/r" none (-1) true (by decide)

end Ecotr3
